import Mathlib

/-!
Shallow embedding of `libraries/coevolutionary_analysis.py` and
`analyze_position.py` from the stand-alone ConSurf amino-acid analysis
repository, together with theorems settling the frozen claims about the
coevolutionary scores (`get_amino_acid_pairs`, `compute_mutual_information`,
`compute_triplet_mi`, `compute_connected_triplet_mi`, `find_top_triplets`)
and about `find_alignment_position`.

Modelling conventions:
* an alignment is a list of rows, each row a list of characters; a numpy
  column slice `alignment_array[:, p]` becomes `col aln p`;
* Python floats become exact rationals `ℚ`; `np.log2` is a parameter
  `log2 : ℚ → ℚ` of every score (all the claims settled here are structural
  in the logarithm, so every theorem quantifies over it);
* `Counter` iteration order (insertion order of first occurrences) becomes
  `firstKeys`; where a score only sums over the keys the order is
  irrelevant and `List.dedup` is used instead;
* Python's stable `sort`/`sorted` with `reverse=True` on a key becomes
  `List.insertionSort` with the reflexive total relation "key not smaller",
  which is stable in the same sense.
-/

/-- Gap symbol used throughout the alignment files. -/
def gap : Char := '-'

/-- Column `p` of the alignment (the numpy slice `alignment_array[:, p]`). -/
def col (aln : List (List Char)) (p : Nat) : List Char :=
  aln.map (fun row => row.getD p gap)

/-- Rows kept by the joint non-gap mask of two columns:
`mask = (col_i != '-') & (col_j != '-')` followed by indexing both columns
with it, zipped into pairs. -/
def cleanPairs (ci cj : List Char) : List (Char × Char) :=
  (ci.zip cj).filter (fun p => p.1 != gap && p.2 != gap)

/-- Rows kept by the joint non-gap mask of three columns. -/
def cleanTriples (ci cj ck : List Char) : List (Char × Char × Char) :=
  (ci.zip (cj.zip ck)).filter
    (fun t => t.1 != gap && t.2.1 != gap && t.2.2 != gap)

/-- Keys of a Python `Counter` built from `l`, in insertion order, i.e. the
distinct elements of `l` ordered by first occurrence. -/
def firstKeys {α : Type} [DecidableEq α] : List α → List α
  | [] => []
  | x :: xs => x :: (firstKeys xs).filter (fun y => y != x)

/-- Multiplicity of `a` in `l`, i.e. the Python `Counter(l)[a]`.  (A wrapper
fixing the `BEq` instance derived from decidable equality.) -/
def countOcc {α : Type} [DecidableEq α] (l : List α) (a : α) : Nat :=
  l.count a

/-- One summand of the `compute_mutual_information` loop, for the `Counter`
key `xy`: `p_ij * log2 (p_ij / (p_i * p_j))` guarded by positivity of the
three probabilities, exactly as in the Python loop body. -/
def miTerm (log2 : ℚ → ℚ) (ps : List (Char × Char)) (xy : Char × Char) : ℚ :=
  let total : ℚ := (ps.length : ℚ)
  let p_ij : ℚ := (countOcc ps xy : ℚ) / total
  let p_i : ℚ := (countOcc (ps.map Prod.fst) xy.1 : ℚ) / total
  let p_j : ℚ := (countOcc (ps.map Prod.snd) xy.2 : ℚ) / total
  if 0 < p_ij ∧ 0 < p_i ∧ 0 < p_j then p_ij * log2 (p_ij / (p_i * p_j))
  else 0

/-- Inner sum of `compute_mutual_information`: iterate over the keys of
`Counter(zip(col_i_clean, col_j_clean))` and add the guarded summands.
Summation order over the `Counter` keys does not affect the value, so the
keys are taken as `ps.dedup`. -/
def miRaw (log2 : ℚ → ℚ) (ps : List (Char × Char)) : ℚ :=
  (ps.dedup.map (miTerm log2 ps)).sum

/-- Embedding of `compute_mutual_information(col_i, col_j)`: filter gaps on
the joint mask, return `0.0` on an empty mask, otherwise the clamped sum
`max(0, mi)`. -/
def compute_mutual_information (log2 : ℚ → ℚ) (ci cj : List Char) : ℚ :=
  let ps := cleanPairs ci cj
  if ps.length = 0 then 0 else max 0 (miRaw log2 ps)

/-- One summand of the `compute_triplet_mi` loop, for the 3-way `Counter`
key `t`: `p_ijk * log2 (p_ijk / (p_i * p_j * p_k))` guarded by positivity,
exactly as in the Python loop body. -/
def triTerm (log2 : ℚ → ℚ) (ts : List (Char × Char × Char))
    (t : Char × Char × Char) : ℚ :=
  let total : ℚ := (ts.length : ℚ)
  let p_ijk : ℚ := (countOcc ts t : ℚ) / total
  let p_i : ℚ := (countOcc (ts.map Prod.fst) t.1 : ℚ) / total
  let p_j : ℚ := (countOcc (ts.map (fun u => u.2.1)) t.2.1 : ℚ) / total
  let p_k : ℚ := (countOcc (ts.map (fun u => u.2.2)) t.2.2 : ℚ) / total
  if 0 < p_ijk ∧ 0 < p_i ∧ 0 < p_j ∧ 0 < p_k then
    p_ijk * log2 (p_ijk / (p_i * p_j * p_k))
  else 0

/-- Inner sum of `compute_triplet_mi`: iterate over the keys of the 3-way
`Counter` and add the guarded summands. -/
def triRaw (log2 : ℚ → ℚ) (ts : List (Char × Char × Char)) : ℚ :=
  (ts.dedup.map (triTerm log2 ts)).sum

/-- Embedding of `compute_triplet_mi(alignment_array, pos_i, pos_j, pos_k)`:
filter gaps on the triple-wise mask, return `0.0` when fewer than 10 rows
survive (`if len(col_i_clean) < 10: return 0.0`), otherwise the clamped sum
`max(0, mi3)`. -/
def compute_triplet_mi (log2 : ℚ → ℚ) (aln : List (List Char))
    (pos_i pos_j pos_k : Nat) : ℚ :=
  let ts := cleanTriples (col aln pos_i) (col aln pos_j) (col aln pos_k)
  if ts.length < 10 then 0 else max 0 (triRaw log2 ts)

/-- Embedding of `compute_connected_triplet_mi`:
`CMI(i,j,k) = MI(i,j,k) - [MI(i,j) + MI(i,k) + MI(j,k)]` where each pairwise
term is computed on the full columns (hence gap-filtered on its own pair's
mask). -/
def compute_connected_triplet_mi (log2 : ℚ → ℚ) (aln : List (List Char))
    (pos_i pos_j pos_k : Nat) : ℚ :=
  compute_triplet_mi log2 aln pos_i pos_j pos_k -
    (compute_mutual_information log2 (col aln pos_i) (col aln pos_j) +
     compute_mutual_information log2 (col aln pos_i) (col aln pos_k) +
     compute_mutual_information log2 (col aln pos_j) (col aln pos_k))

/-- Embedding of `get_amino_acid_pairs(alignment_array, pos_i_idx, pos_j_idx,
top_n)`: filter gaps on the joint mask, return `[]` on an empty mask,
otherwise list the `Counter` items `(pair, count)` in insertion order, sort
them by count descending (Python's stable `sorted(..., reverse=True)`), keep
the first `top_n`, and format each as `(aa_i, aa_j, count/total, count)`. -/
def get_amino_acid_pairs (aln : List (List Char)) (pos_i_idx pos_j_idx : Nat)
    (top_n : Nat) : List (Char × Char × ℚ × Nat) :=
  let ps := cleanPairs (col aln pos_i_idx) (col aln pos_j_idx)
  if ps.length = 0 then []
  else
    let items := (firstKeys ps).map (fun xy => (xy, countOcc ps xy))
    let sorted_pairs :=
      (List.insertionSort (fun a b => b.2 ≤ a.2) items).take top_n
    sorted_pairs.map
      (fun e => (e.1.1, e.1.2, (e.2 : ℚ) / (ps.length : ℚ), e.2))

/-- All ordered pairs `(y, z)` with `y` before `z` in the list, in the order
`itertools`-style enumeration produces them. -/
def pairsOf2 {α : Type} : List α → List (α × α)
  | [] => []
  | y :: ys => (ys.map (fun z => (y, z))) ++ pairsOf2 ys

/-- Embedding of `itertools.combinations(l, 3)`: all 3-combinations of the
list, each in list order, enumerated lexicographically by position. -/
def combinations3 {α : Type} : List α → List (α × α × α)
  | [] => []
  | x :: xs => ((pairsOf2 xs).map (fun p => (x, p.1, p.2))) ++ combinations3 xs

/-- Pair-scoring loop of `find_top_triplets`: for every `i < j < n_pos`,
record `(i, j, MI(column i, column j))`, enumerated as in the nested Python
loops (`for i in range(n_pos): for j in range(i+1, n_pos)`). -/
def pair_scores (log2 : ℚ → ℚ) (aln : List (List Char)) (nPos : Nat) :
    List (Nat × Nat × ℚ) :=
  (List.range nPos).flatMap (fun i =>
    (List.range' (i + 1) (nPos - (i + 1))).map (fun j =>
      (i, j, compute_mutual_information log2 (col aln i) (col aln j))))

/-- The `top_pairs` list of `find_top_triplets`: all pair scores sorted by
MI descending (stable) and truncated to `max_candidates`. -/
def top_pair_list (log2 : ℚ → ℚ) (aln : List (List Char)) (nPos : Nat)
    (max_candidates : Nat) : List (Nat × Nat × ℚ) :=
  (List.insertionSort (fun a b => b.2.2 ≤ a.2.2)
    (pair_scores log2 aln nPos)).take max_candidates

/-- The `candidate_list` of `find_top_triplets`: the distinct positions
appearing in any top pair, sorted ascending (`sorted(list(set(...)))`). -/
def candidate_positions (log2 : ℚ → ℚ) (aln : List (List Char)) (nPos : Nat)
    (max_candidates : Nat) : List Nat :=
  List.insertionSort (fun a b => a ≤ b)
    (firstKeys ((top_pair_list log2 aln nPos max_candidates).flatMap
      (fun t => [t.1, t.2.1])))

/-- The `triplet_scores` accumulator of `find_top_triplets`: for every
3-combination of the candidate positions, keep the labelled triplet exactly
when its connected MI is strictly positive. -/
def triplet_score_list (log2 : ℚ → ℚ) (aln : List (List Char))
    (position_indices : List Nat) (position_labels : Nat → String)
    (max_candidates : Nat) : List (String × String × String × ℚ) :=
  (combinations3
      (candidate_positions log2 aln position_indices.length max_candidates)).filterMap
    (fun t =>
      if 0 < compute_connected_triplet_mi log2 aln t.1 t.2.1 t.2.2 then
        some (position_labels (position_indices.getD t.1 0),
              position_labels (position_indices.getD t.2.1 0),
              position_labels (position_indices.getD t.2.2 0),
              compute_connected_triplet_mi log2 aln t.1 t.2.1 t.2.2)
      else none)

/-- Embedding of `find_top_triplets(alignment_array, position_indices,
position_labels, top_n, max_candidates)`: sort the retained triplets by
connected MI descending (stable) and return the first `top_n`. -/
def find_top_triplets (log2 : ℚ → ℚ) (aln : List (List Char))
    (position_indices : List Nat) (position_labels : Nat → String)
    (top_n max_candidates : Nat) : List (String × String × String × ℚ) :=
  (List.insertionSort (fun a b => b.2.2.2 ≤ a.2.2.2)
    (triplet_score_list log2 aln position_indices position_labels
      max_candidates)).take top_n

/-- Loop of `find_alignment_position` from `analyze_position.py`, with the
running 0-based index `i` and the count `q` of non-gap characters seen so
far made explicit. -/
def find_alignment_position_aux : List Char → Nat → Nat → Nat → Option Nat
  | [], _, _, _ => none
  | a :: rest, target, i, q =>
    if a ≠ gap then
      if q + 1 = target then some i
      else find_alignment_position_aux rest target (i + 1) (q + 1)
    else find_alignment_position_aux rest target (i + 1) q

/-- Embedding of `find_alignment_position(query_seq, target_position)`:
walk the sequence, counting non-gap characters, and return the index at
which the count reaches `target_position`; `None` if it never does. -/
def find_alignment_position (query_seq : List Char) (target_position : Nat) :
    Option Nat :=
  find_alignment_position_aux query_seq target_position 0 0

/-- Tiny concrete alignment used to evaluate the scores on explicit input:
two rows `AAA` and `CCC` (three identical columns, two rows). -/
def exAln : List (List Char) := [['A', 'A', 'A'], ['C', 'C', 'C']]

/-- Concrete alignment from the specification's worked example for
`get_amino_acid_pairs`: rows `AD`, `AD`, `CE` and a gapped row `-E`. -/
def exAlnPairs : List (List Char) :=
  [['A', 'D'], ['A', 'D'], ['C', 'E'], ['-', 'E']]

theorem mem_firstKeys {α : Type} [DecidableEq α] {a : α} {l : List α} :
    a ∈ firstKeys l ↔ a ∈ l := by
  induction l with
  | nil => simp [firstKeys]
  | cons x xs ih =>
    by_cases h : a = x <;> simp [firstKeys, List.mem_filter, ih, h]

theorem firstKeys_nodup {α : Type} [DecidableEq α] {l : List α} :
    (firstKeys l).Nodup := by
  induction l with
  | nil => simp [firstKeys]
  | cons x xs ih =>
    refine List.Nodup.cons ?_ (ih.filter _)
    simp [List.mem_filter]

theorem firstKeys_perm_dedup {α : Type} [DecidableEq α] (l : List α) :
    (firstKeys l).Perm l.dedup :=
  List.perm_of_nodup_nodup_toFinset_eq firstKeys_nodup l.nodup_dedup (by
    ext a
    simp [List.mem_toFinset, mem_firstKeys, List.mem_dedup])

theorem cleanPairs_swap (ci cj : List Char) :
    cleanPairs cj ci = (cleanPairs ci cj).map Prod.swap := by
  unfold cleanPairs
  rw [← List.zip_swap ci cj, List.filter_map]
  exact congrArg _ (List.filter_congr (fun a _ => Bool.and_comm _ _))

theorem miTerm_swap (log2 : ℚ → ℚ) (ps : List (Char × Char))
    (xy : Char × Char) :
    miTerm log2 (ps.map Prod.swap) xy.swap = miTerm log2 ps xy := by
  have h1 : countOcc (ps.map Prod.swap) xy.swap = countOcc ps xy :=
    List.count_map_of_injective _ _ Prod.swap_injective _
  have h2 : (ps.map Prod.swap).map Prod.fst = ps.map Prod.snd := by
    rw [List.map_map]; rfl
  have h3 : (ps.map Prod.swap).map Prod.snd = ps.map Prod.fst := by
    rw [List.map_map]; rfl
  simp only [miTerm, h1, h2, h3, List.length_map, Prod.fst_swap, Prod.snd_swap]
  rw [mul_comm ((countOcc (ps.map Prod.snd) xy.2 : ℚ) / (ps.length : ℚ))
    ((countOcc (ps.map Prod.fst) xy.1 : ℚ) / (ps.length : ℚ))]
  exact if_congr (by tauto) rfl rfl

theorem miRaw_swap (log2 : ℚ → ℚ) (ps : List (Char × Char)) :
    miRaw log2 (ps.map Prod.swap) = miRaw log2 ps := by
  unfold miRaw
  rw [List.dedup_map_of_injective Prod.swap_injective, List.map_map]
  exact congrArg List.sum
    (List.map_congr_left fun xy _ => miTerm_swap log2 ps xy)

theorem compute_mutual_information_comm (log2 : ℚ → ℚ) (ci cj : List Char) :
    compute_mutual_information log2 cj ci =
      compute_mutual_information log2 ci cj := by
  simp only [compute_mutual_information]
  rw [cleanPairs_swap ci cj, List.length_map, miRaw_swap]

theorem compute_mutual_information_nonneg (log2 : ℚ → ℚ) (ci cj : List Char) :
    0 ≤ compute_mutual_information log2 ci cj := by
  simp only [compute_mutual_information]
  split
  · exact le_refl 0
  · exact le_max_left 0 _

theorem compute_triplet_mi_nonneg (log2 : ℚ → ℚ) (aln : List (List Char))
    (pos_i pos_j pos_k : Nat) :
    0 ≤ compute_triplet_mi log2 aln pos_i pos_j pos_k := by
  simp only [compute_triplet_mi]
  split
  · exact le_refl 0
  · exact le_max_left 0 _

theorem cleanPairs_append_gaps (ci cj : List Char) (m : Nat)
    (h : ci.length = cj.length) :
    cleanPairs (ci ++ List.replicate m gap) (cj ++ List.replicate m gap) =
      cleanPairs ci cj := by
  unfold cleanPairs
  rw [List.zip_append h, List.filter_append, List.zip_replicate, Nat.min_self,
    List.filter_replicate_of_neg (by simp), List.append_nil]

theorem sum_map_div {β : Type} (f : β → ℚ) (t : ℚ) (l : List β) :
    (l.map (fun x => f x / t)).sum = (l.map f).sum / t := by
  induction l with
  | nil => simp
  | cons a l ih => simp [ih, add_div]

theorem find_alignment_position_aux_spec (s : List Char) :
    ∀ (t i0 q : Nat), q < t →
      ((∀ r, find_alignment_position_aux s t i0 q = some r →
          ∃ d, d < s.length ∧ r = i0 + d ∧ s.getD d gap ≠ gap ∧
            ((s.take (d + 1)).filter (fun c => c != gap)).length + q = t) ∧
        (find_alignment_position_aux s t i0 q = none ↔
          (s.filter (fun c => c != gap)).length + q < t)) := by
  induction s with
  | nil =>
    intro t i0 q hq
    refine ⟨?_, ?_⟩
    · intro r hr
      simp [find_alignment_position_aux] at hr
    · simpa [find_alignment_position_aux] using hq
  | cons a rest ih =>
    intro t i0 q hq
    by_cases ha : a = gap
    · have hstep : find_alignment_position_aux (a :: rest) t i0 q =
          find_alignment_position_aux rest t (i0 + 1) q := by
        simp [find_alignment_position_aux, ha]
      have hrec := ih t (i0 + 1) q hq
      constructor
      · intro r hr
        rw [hstep] at hr
        obtain ⟨d, hd, hrd, hg, hc⟩ := hrec.1 r hr
        refine ⟨d + 1, by simpa using hd, by omega, by simpa using hg, ?_⟩
        simpa [ha] using hc
      · rw [hstep, hrec.2]
        simp [ha]
    · by_cases ht : q + 1 = t
      · have hstep : find_alignment_position_aux (a :: rest) t i0 q =
            some i0 := by
          simp [find_alignment_position_aux, ha, ht]
        constructor
        · intro r hr
          rw [hstep] at hr
          obtain rfl : i0 = r := by injection hr
          refine ⟨0, by simp, by omega, by simpa using ha, ?_⟩
          simp [ha]
          omega
        · rw [hstep]
          simp [ha]
          omega
      · have hq2 : q + 1 < t := by omega
        have hstep : find_alignment_position_aux (a :: rest) t i0 q =
            find_alignment_position_aux rest t (i0 + 1) (q + 1) := by
          simp [find_alignment_position_aux, ha, ht]
        have hrec := ih t (i0 + 1) (q + 1) hq2
        constructor
        · intro r hr
          rw [hstep] at hr
          obtain ⟨d, hd, hrd, hg, hc⟩ := hrec.1 r hr
          refine ⟨d + 1, by simpa using hd, by omega, by simpa using hg, ?_⟩
          simp [ha]
          omega
        · rw [hstep, hrec.2]
          simp [ha]
          omega

/-- C1 (counterexample): the claim "`compute_connected_triplet_mi` returns
exactly 0.0 whenever fewer than 10 jointly non-gap rows exist" is false: on
the two-row alignment `exAln` (2 < 10 jointly non-gap rows) the connected
score is the negative of the three positive pairwise MI values, not 0. -/
theorem claim_C1_counterexample :
    ¬ (∀ (log2 : ℚ → ℚ) (aln : List (List Char)) (i j k : Nat),
        (cleanTriples (col aln i) (col aln j) (col aln k)).length < 10 →
          compute_connected_triplet_mi log2 aln i j k = 0) := by
  intro h
  have h2 := h (fun x => x) exAln 0 1 2 (by decide)
  have h3 : compute_connected_triplet_mi (fun x => x) exAln 0 1 2 = -6 := by
    norm_num +decide [compute_connected_triplet_mi, compute_triplet_mi,
      compute_mutual_information, cleanPairs, cleanTriples, col, exAln,
      miRaw, miTerm, countOcc, gap]
  rw [h2] at h3
  exact absurd h3 (by norm_num)

/-- C1 (amended): when fewer than 10 jointly non-gap rows exist, the triplet
term is 0 and `compute_connected_triplet_mi` returns exactly the negative of
the sum of the three pairwise MI values; in particular the result is ≤ 0
(and 0 only when all three pairwise MIs vanish), not necessarily 0.0. -/
theorem claim_C1_amended (log2 : ℚ → ℚ) (aln : List (List Char)) (i j k : Nat)
    (h : (cleanTriples (col aln i) (col aln j) (col aln k)).length < 10) :
    compute_connected_triplet_mi log2 aln i j k =
      -(compute_mutual_information log2 (col aln i) (col aln j) +
        compute_mutual_information log2 (col aln i) (col aln k) +
        compute_mutual_information log2 (col aln j) (col aln k)) ∧
      compute_connected_triplet_mi log2 aln i j k ≤ 0 := by
  have h0 : compute_triplet_mi log2 aln i j k = 0 := by
    simp only [compute_triplet_mi, if_pos h]
  have n1 := compute_mutual_information_nonneg log2 (col aln i) (col aln j)
  have n2 := compute_mutual_information_nonneg log2 (col aln i) (col aln k)
  have n3 := compute_mutual_information_nonneg log2 (col aln j) (col aln k)
  constructor
  · simp only [compute_connected_triplet_mi, h0]
    ring
  · simp only [compute_connected_triplet_mi, h0]
    linarith

/-- C1 (witness): the amended claim instantiated on the concrete two-row
alignment `exAln` with the identity as logarithm. -/
theorem claim_C1_witness :
    compute_connected_triplet_mi (fun x => x) exAln 0 1 2 =
      -(compute_mutual_information (fun x => x) (col exAln 0) (col exAln 1) +
        compute_mutual_information (fun x => x) (col exAln 0) (col exAln 2) +
        compute_mutual_information (fun x => x) (col exAln 1) (col exAln 2)) ∧
      compute_connected_triplet_mi (fun x => x) exAln 0 1 2 ≤ 0 :=
  claim_C1_amended (fun x => x) exAln 0 1 2 (by decide)

/-- C2: `compute_connected_triplet_mi` equals `compute_triplet_mi` minus the
sum of the three pairwise `compute_mutual_information` values, each computed
on its own pair of full columns (so gap-filtered on its own pair mask); the
result is the bare difference, with no clamping — and it is genuinely
signed: on `exAln` it is strictly negative. -/
theorem claim_C2 :
    (∀ (log2 : ℚ → ℚ) (aln : List (List Char)) (i j k : Nat),
      compute_connected_triplet_mi log2 aln i j k =
        compute_triplet_mi log2 aln i j k -
          (compute_mutual_information log2 (col aln i) (col aln j) +
           compute_mutual_information log2 (col aln i) (col aln k) +
           compute_mutual_information log2 (col aln j) (col aln k))) ∧
      compute_connected_triplet_mi (fun x => x) exAln 0 1 2 < 0 := by
  constructor
  · intro log2 aln i j k
    rfl
  · norm_num +decide [compute_connected_triplet_mi, compute_triplet_mi,
      compute_mutual_information, cleanPairs, cleanTriples, col, exAln,
      miRaw, miTerm, countOcc, gap]

/-- C4: `compute_mutual_information` and `compute_triplet_mi` never return a
negative value, on any input whatsoever (both end in a clamp to `max 0 _`,
and the degenerate branches return 0). -/
theorem claim_C4 :
    (∀ (log2 : ℚ → ℚ) (ci cj : List Char),
        0 ≤ compute_mutual_information log2 ci cj) ∧
      (∀ (log2 : ℚ → ℚ) (aln : List (List Char)) (i j k : Nat),
        0 ≤ compute_triplet_mi log2 aln i j k) :=
  ⟨compute_mutual_information_nonneg, compute_triplet_mi_nonneg⟩

/-- C5: when fewer than 10 rows are simultaneously non-gap in the three
columns, `compute_triplet_mi` returns exactly 0. -/
theorem claim_C5 (log2 : ℚ → ℚ) (aln : List (List Char)) (i j k : Nat)
    (h : (cleanTriples (col aln i) (col aln j) (col aln k)).length < 10) :
    compute_triplet_mi log2 aln i j k = 0 := by
  simp only [compute_triplet_mi, if_pos h]

/-- C5 (witness): the two-row alignment `exAln` has 2 < 10 jointly non-gap
rows and its triplet MI evaluates to 0. -/
theorem claim_C5_witness :
    (cleanTriples (col exAln 0) (col exAln 1) (col exAln 2)).length < 10 ∧
      compute_triplet_mi (fun x => x) exAln 0 1 2 = 0 :=
  ⟨by decide, claim_C5 (fun x => x) exAln 0 1 2 (by decide)⟩

/-- C6: `compute_mutual_information` is symmetric in its two columns. -/
theorem claim_C6 (log2 : ℚ → ℚ) (a b : List Char)
    (_h : a.length = b.length) :
    compute_mutual_information log2 a b = compute_mutual_information log2 b a :=
  (compute_mutual_information_comm log2 a b).symm

/-- C6 (witness): symmetry instantiated on two concrete equal-length
columns. -/
theorem claim_C6_witness :
    (['A', 'C'] : List Char).length = (['A', 'A'] : List Char).length ∧
      compute_mutual_information (fun x => x) ['A', 'C'] ['A', 'A'] =
        compute_mutual_information (fun x => x) ['A', 'A'] ['A', 'C'] :=
  ⟨rfl, claim_C6 (fun x => x) ['A', 'C'] ['A', 'A'] rfl⟩

/-- C7: appending extra rows that are gaps in both columns leaves
`compute_mutual_information` unchanged (such rows are excluded by the joint
non-gap mask). -/
theorem claim_C7 (log2 : ℚ → ℚ) (a b : List Char) (m : Nat)
    (h : a.length = b.length) :
    compute_mutual_information log2 (a ++ List.replicate m gap)
        (b ++ List.replicate m gap) =
      compute_mutual_information log2 a b := by
  simp only [compute_mutual_information, cleanPairs_append_gaps a b m h]

/-- C7 (witness): the invariance instantiated on two concrete columns with
three all-gap rows appended. -/
theorem claim_C7_witness :
    (['A', 'C'] : List Char).length = (['A', 'A'] : List Char).length ∧
      compute_mutual_information (fun x => x)
          (['A', 'C'] ++ List.replicate 3 gap)
          (['A', 'A'] ++ List.replicate 3 gap) =
        compute_mutual_information (fun x => x) ['A', 'C'] ['A', 'A'] :=
  ⟨rfl, claim_C7 (fun x => x) ['A', 'C'] ['A', 'A'] 3 rfl⟩

/-- C8: when the joint non-gap mask of the two columns selects zero rows,
`compute_mutual_information` returns 0 (the guard fires before any division
or logarithm is evaluated; in the embedding the function is total). -/
theorem claim_C8 (log2 : ℚ → ℚ) (ci cj : List Char)
    (h : (cleanPairs ci cj).length = 0) :
    compute_mutual_information log2 ci cj = 0 := by
  simp only [compute_mutual_information, if_pos h]

/-- C8 (witness): two columns whose joint mask is empty (every row has a gap
in one of them) yield 0. -/
theorem claim_C8_witness :
    (cleanPairs ['-', '-'] ['A', '-']).length = 0 ∧
      compute_mutual_information (fun x => x) ['-', '-'] ['A', '-'] = 0 :=
  ⟨by decide, claim_C8 (fun x => x) ['-', '-'] ['A', '-'] (by decide)⟩

/-- C10: for `p ≥ 1`, `find_alignment_position s p` returns the 0-based
index of the `p`-th non-gap character of `s` — the character there is not a
gap and exactly `p` of the first `i + 1` characters are non-gap — and it
returns `none` exactly when `s` has fewer than `p` non-gap characters. -/
theorem claim_C10 (s : List Char) (p : Nat) (hp : 1 ≤ p) :
    (∀ i, find_alignment_position s p = some i →
        i < s.length ∧ s.getD i gap ≠ gap ∧
          ((s.take (i + 1)).filter (fun c => c != gap)).length = p) ∧
      (find_alignment_position s p = none ↔
        (s.filter (fun c => c != gap)).length < p) := by
  have h := find_alignment_position_aux_spec s p 0 0 hp
  constructor
  · intro i hi
    obtain ⟨d, hd, hrd, hg, hc⟩ := h.1 i hi
    obtain rfl : i = d := by omega
    exact ⟨hd, hg, by omega⟩
  · rw [show find_alignment_position s p =
        find_alignment_position_aux s p 0 0 from rfl, h.2]
    omega

/-- C10 (witness): on the sequence `A-C` the 2nd non-gap character sits at
0-based index 2, and the theorem instantiated there certifies it. -/
theorem claim_C10_witness :
    2 < (['A', '-', 'C'] : List Char).length ∧
      (['A', '-', 'C'] : List Char).getD 2 gap ≠ gap ∧
      (((['A', '-', 'C'] : List Char).take 3).filter
          (fun c => c != gap)).length = 2 :=
  (claim_C10 ['A', '-', 'C'] 2 (by decide)).1 2 (by decide)

/-- C9: `get_amino_acid_pairs` returns at most `top_n` entries; each entry
carries a pair occurring among the jointly non-gap rows together with its
exact raw count and the frequency `count/total` where `total` is the number
of non-gap rows; entries are ranked by count descending; every distinct pair
left out has a count no larger than any reported one; the frequencies of
the full ranking sum to 1; and the result is empty when the non-gap row
count is zero. -/
theorem claim_C9 (aln : List (List Char)) (i j n : Nat)
    (ps : List (Char × Char))
    (hps : ps = cleanPairs (col aln i) (col aln j)) :
    (ps.length = 0 → get_amino_acid_pairs aln i j n = []) ∧
    (get_amino_acid_pairs aln i j n).length ≤ n ∧
    (∀ e ∈ get_amino_acid_pairs aln i j n,
        (e.1, e.2.1) ∈ firstKeys ps ∧
        e.2.2.2 = countOcc ps (e.1, e.2.1) ∧
        e.2.2.1 = (countOcc ps (e.1, e.2.1) : ℚ) / (ps.length : ℚ)) ∧
    (get_amino_acid_pairs aln i j n).Pairwise
      (fun x y => y.2.2.2 ≤ x.2.2.2) ∧
    (ps ≠ [] →
      ((firstKeys ps).map
          (fun xy => (countOcc ps xy : ℚ) / (ps.length : ℚ))).sum = 1) ∧
    (∀ xy ∈ firstKeys ps,
      (∀ e ∈ get_amino_acid_pairs aln i j n, (e.1, e.2.1) ≠ xy) →
      ∀ e ∈ get_amino_acid_pairs aln i j n, countOcc ps xy ≤ e.2.2.2) := by
  have hga : get_amino_acid_pairs aln i j n =
      (if ps.length = 0 then ([] : List (Char × Char × ℚ × Nat))
       else ((List.insertionSort (fun a b => b.2 ≤ a.2)
          ((firstKeys ps).map (fun xy => (xy, countOcc ps xy)))).take n).map
          (fun e => (e.1.1, e.1.2, (e.2 : ℚ) / (ps.length : ℚ), e.2))) := by
    rw [hps]; rfl
  by_cases h0 : ps.length = 0
  · have hnil : ps = [] := List.length_eq_zero.mp h0
    rw [hga, if_pos h0]
    refine ⟨fun _ => rfl, by simp, by simp, by simp, fun hne => absurd hnil hne,
      by simp [hnil, firstKeys]⟩
  · rw [hga, if_neg h0]
    have htot : IsTotal ((Char × Char) × Nat)
        (fun a b => b.2 ≤ a.2) := ⟨fun a b => le_total b.2 a.2⟩
    have htrans : IsTrans ((Char × Char) × Nat)
        (fun a b => b.2 ≤ a.2) := ⟨fun a b c h1 h2 => le_trans h2 h1⟩
    have hsorted : (List.insertionSort (fun a b => b.2 ≤ a.2)
        ((firstKeys ps).map (fun xy => (xy, countOcc ps xy)))).Pairwise
          (fun a b => b.2 ≤ a.2) :=
      List.sorted_insertionSort _ _
    have hperm := List.perm_insertionSort (fun a b => b.2 ≤ a.2)
      ((firstKeys ps).map (fun xy => (xy, countOcc ps xy)))
    refine ⟨fun h => absurd h h0, ?_, ?_, ?_, ?_, ?_⟩
    · rw [List.length_map]
      exact List.length_take_le n _
    · intro e he
      obtain ⟨u, hu, rfl⟩ := List.mem_map.mp he
      have hu2 : u ∈ (firstKeys ps).map (fun xy => (xy, countOcc ps xy)) :=
        hperm.mem_iff.mp (List.take_subset n _ hu)
      obtain ⟨xy, hxy, rfl⟩ := List.mem_map.mp hu2
      exact ⟨hxy, rfl, rfl⟩
    · exact ((hsorted.sublist (List.take_sublist n _)).map _
        (fun a b h => h))
    · intro hne
      have hsumNat : ((firstKeys ps).map (fun xy => countOcc ps xy)).sum =
          ps.length := by
        rw [((firstKeys_perm_dedup ps).map
          (fun xy => countOcc ps xy)).sum_eq]
        exact List.sum_map_count_dedup_eq_length ps
      have hcast : ((firstKeys ps).map
          (fun xy => (countOcc ps xy : ℚ))).sum = (ps.length : ℚ) := by
        rw [← hsumNat, Nat.cast_list_sum, List.map_map]
        rfl
      have hT : (ps.length : ℚ) ≠ 0 :=
        Nat.cast_ne_zero.mpr (fun h => hne (List.length_eq_zero.mp h))
      rw [sum_map_div, hcast, div_self hT]
    · intro xy hxy hnot e he
      obtain ⟨u, hu, rfl⟩ := List.mem_map.mp he
      have hkey : (xy, countOcc ps xy) ∈
          (firstKeys ps).map (fun z => (z, countOcc ps z)) :=
        List.mem_map_of_mem _ hxy
      have hkey2 : (xy, countOcc ps xy) ∈
          List.insertionSort (fun a b => b.2 ≤ a.2)
            ((firstKeys ps).map (fun z => (z, countOcc ps z))) :=
        hperm.mem_iff.mpr hkey
      rw [← List.take_append_drop n (List.insertionSort (fun a b => b.2 ≤ a.2)
        ((firstKeys ps).map (fun z => (z, countOcc ps z))))] at hkey2
      rcases List.mem_append.mp hkey2 with hin | hin
      · exact absurd rfl (hnot _ (List.mem_map_of_mem _ hin))
      · have hsorted2 : (List.take n (List.insertionSort (fun a b => b.2 ≤ a.2)
              ((firstKeys ps).map (fun z => (z, countOcc ps z)))) ++
            List.drop n (List.insertionSort (fun a b => b.2 ≤ a.2)
              ((firstKeys ps).map (fun z => (z, countOcc ps z))))).Pairwise
                (fun a b => b.2 ≤ a.2) := by
          rw [List.take_append_drop]
          exact hsorted
        exact (List.pairwise_append.mp hsorted2).2.2 u hu
          (xy, countOcc ps xy) hin

/-- C9 (witness): the specification's worked example — rows `AD, AD, CE` and
a gapped row — evaluated through the theorem: at most 5 entries come back
and the full-ranking frequencies sum to 1. -/
theorem claim_C9_witness :
    (get_amino_acid_pairs exAlnPairs 0 1 5).length ≤ 5 ∧
      ((firstKeys (cleanPairs (col exAlnPairs 0) (col exAlnPairs 1))).map
          (fun xy =>
            (countOcc (cleanPairs (col exAlnPairs 0) (col exAlnPairs 1)) xy :
                ℚ) /
              ((cleanPairs (col exAlnPairs 0) (col exAlnPairs 1)).length :
                ℚ))).sum = 1 :=
  ⟨(claim_C9 exAlnPairs 0 1 5 _ rfl).2.1,
   (claim_C9 exAlnPairs 0 1 5 _ rfl).2.2.2.2.1 (by decide)⟩

theorem mem_pairsOf2 {α : Type} {a b : α} {l : List α} :
    (a, b) ∈ pairsOf2 l ↔ [a, b].Sublist l := by
  induction l with
  | nil => simp [pairsOf2]
  | cons y ys ih =>
    rw [pairsOf2]
    constructor
    · intro h
      rcases List.mem_append.mp h with h | h
      · obtain ⟨z, hz, he⟩ := List.mem_map.mp h
        injection he with h1 h2
        subst h1
        subst h2
        exact List.cons_sublist_cons.mpr (List.singleton_sublist.mpr hz)
      · exact (ih.mp h).cons y
    · intro h
      rcases List.sublist_cons_iff.mp h with h | ⟨r, hr, hsub⟩
      · exact List.mem_append.mpr (Or.inr (ih.mpr h))
      · injection hr with h1 h2
        subst h1
        subst h2
        exact List.mem_append.mpr (Or.inl (List.mem_map.mpr
          ⟨b, List.singleton_sublist.mp hsub, rfl⟩))

theorem mem_combinations3 {α : Type} {a b c : α} {l : List α} :
    (a, b, c) ∈ combinations3 l ↔ [a, b, c].Sublist l := by
  induction l with
  | nil => simp [combinations3]
  | cons x xs ih =>
    rw [combinations3]
    constructor
    · intro h
      rcases List.mem_append.mp h with h | h
      · obtain ⟨p, hp, he⟩ := List.mem_map.mp h
        obtain ⟨pb, pc⟩ := p
        injection he with h1 h23
        injection h23 with h2 h3
        subst h1
        subst h2
        subst h3
        exact List.cons_sublist_cons.mpr (mem_pairsOf2.mp hp)
      · exact (ih.mp h).cons x
    · intro h
      rcases List.sublist_cons_iff.mp h with h | ⟨r, hr, hsub⟩
      · exact List.mem_append.mpr (Or.inr (ih.mpr h))
      · injection hr with h1 h2
        subst h1
        subst h2
        exact List.mem_append.mpr (Or.inl (List.mem_map.mpr
          ⟨(b, c), mem_pairsOf2.mpr hsub, rfl⟩))

/-- C3: the `find_top_triplets` pipeline — every unordered position pair is
scored with `compute_mutual_information` (and nothing else is scored); the
kept `top_pairs` are at most `max_candidates` scored pairs, sorted by MI
descending, and maximal among all scored pairs; the candidate set is exactly
the set of positions appearing in a kept pair, without duplicates; the
retained triplets are exactly the 3-combinations of the candidate list with
strictly positive connected MI, labelled through `position_indices` and
`position_labels`; the final result holds at most `top_n` retained triplets
sorted by connected MI descending; and `max_candidates = 0` yields `[]`. -/
theorem claim_C3 (log2 : ℚ → ℚ) (aln : List (List Char))
    (position_indices : List Nat) (position_labels : Nat → String)
    (top_n max_candidates : Nat) :
    (∀ i j, i < j → j < position_indices.length →
        (i, j, compute_mutual_information log2 (col aln i) (col aln j)) ∈
          pair_scores log2 aln position_indices.length) ∧
    (∀ e ∈ pair_scores log2 aln position_indices.length,
        e.1 < e.2.1 ∧ e.2.1 < position_indices.length ∧
          e.2.2 =
            compute_mutual_information log2 (col aln e.1) (col aln e.2.1)) ∧
    (top_pair_list log2 aln position_indices.length max_candidates).length ≤
      max_candidates ∧
    (∀ e ∈ top_pair_list log2 aln position_indices.length max_candidates,
        e ∈ pair_scores log2 aln position_indices.length) ∧
    (top_pair_list log2 aln position_indices.length max_candidates).Pairwise
      (fun a b => b.2.2 ≤ a.2.2) ∧
    (∀ e ∈ pair_scores log2 aln position_indices.length,
        e ∉ top_pair_list log2 aln position_indices.length max_candidates →
        ∀ u ∈ top_pair_list log2 aln position_indices.length max_candidates,
          e.2.2 ≤ u.2.2) ∧
    (∀ p, p ∈ candidate_positions log2 aln position_indices.length
          max_candidates ↔
        ∃ e ∈ top_pair_list log2 aln position_indices.length max_candidates,
          p = e.1 ∨ p = e.2.1) ∧
    (candidate_positions log2 aln position_indices.length
      max_candidates).Nodup ∧
    (∀ e, e ∈ triplet_score_list log2 aln position_indices position_labels
          max_candidates ↔
        ∃ i j k, [i, j, k].Sublist (candidate_positions log2 aln
            position_indices.length max_candidates) ∧
          0 < compute_connected_triplet_mi log2 aln i j k ∧
          e = (position_labels (position_indices.getD i 0),
               position_labels (position_indices.getD j 0),
               position_labels (position_indices.getD k 0),
               compute_connected_triplet_mi log2 aln i j k)) ∧
    (find_top_triplets log2 aln position_indices position_labels top_n
      max_candidates).length ≤ top_n ∧
    (∀ e ∈ find_top_triplets log2 aln position_indices position_labels top_n
          max_candidates,
        e ∈ triplet_score_list log2 aln position_indices position_labels
          max_candidates) ∧
    (find_top_triplets log2 aln position_indices position_labels top_n
      max_candidates).Pairwise (fun a b => b.2.2.2 ≤ a.2.2.2) ∧
    find_top_triplets log2 aln position_indices position_labels top_n 0 =
      [] := by
  have htot2 : IsTotal (Nat × Nat × ℚ) (fun a b => b.2.2 ≤ a.2.2) :=
    ⟨fun a b => le_total b.2.2 a.2.2⟩
  have htr2 : IsTrans (Nat × Nat × ℚ) (fun a b => b.2.2 ≤ a.2.2) :=
    ⟨fun a b c h1 h2 => le_trans h2 h1⟩
  have htot4 : IsTotal (String × String × String × ℚ)
      (fun a b => b.2.2.2 ≤ a.2.2.2) :=
    ⟨fun a b => le_total b.2.2.2 a.2.2.2⟩
  have htr4 : IsTrans (String × String × String × ℚ)
      (fun a b => b.2.2.2 ≤ a.2.2.2) :=
    ⟨fun a b c h1 h2 => le_trans h2 h1⟩
  refine ⟨?_, ?_, ?_, ?_, ?_, ?_, ?_, ?_, ?_, ?_, ?_, ?_, ?_⟩
  · intro i j hij hj
    refine List.mem_flatMap.mpr ⟨i, List.mem_range.mpr (lt_trans hij hj), ?_⟩
    refine List.mem_map.mpr ⟨j, ?_, rfl⟩
    exact List.mem_range'.mpr ⟨j - (i + 1), by omega, by omega⟩
  · intro e he
    obtain ⟨i, hi, he2⟩ := List.mem_flatMap.mp he
    obtain ⟨j, hj, rfl⟩ := List.mem_map.mp he2
    obtain ⟨d, hd, rfl⟩ := List.mem_range'.mp hj
    have hi2 := List.mem_range.mp hi
    refine ⟨?_, ?_, rfl⟩
    · show i < i + 1 + 1 * d
      omega
    · show i + 1 + 1 * d < position_indices.length
      omega
  · exact List.length_take_le _ _
  · intro e he
    simpa using List.take_subset _ _ he
  · exact (List.sorted_insertionSort _ _).sublist (List.take_sublist _ _)
  · intro e he hnot u hu
    have he2 : e ∈ List.insertionSort (fun a b => b.2.2 ≤ a.2.2)
        (pair_scores log2 aln position_indices.length) := by simpa using he
    rw [← List.take_append_drop max_candidates
      (List.insertionSort (fun a b => b.2.2 ≤ a.2.2)
        (pair_scores log2 aln position_indices.length))] at he2
    rcases List.mem_append.mp he2 with h | h
    · exact absurd h hnot
    · have hsorted2 : (List.take max_candidates
          (List.insertionSort (fun a b => b.2.2 ≤ a.2.2)
            (pair_scores log2 aln position_indices.length)) ++
          List.drop max_candidates
            (List.insertionSort (fun a b => b.2.2 ≤ a.2.2)
              (pair_scores log2 aln position_indices.length))).Pairwise
                (fun a b => b.2.2 ≤ a.2.2) := by
        rw [List.take_append_drop]
        exact List.sorted_insertionSort _ _
      exact (List.pairwise_append.mp hsorted2).2.2 u hu e h
  · intro p
    simp [candidate_positions, mem_firstKeys]
  · exact ((List.perm_insertionSort _ _).nodup_iff).mpr firstKeys_nodup
  · intro e
    rw [triplet_score_list, List.mem_filterMap]
    constructor
    · rintro ⟨t, ht, hf⟩
      obtain ⟨i, j, k⟩ := t
      by_cases hpos : 0 < compute_connected_triplet_mi log2 aln i j k
      · rw [if_pos hpos] at hf
        injection hf with hf
        exact ⟨i, j, k, mem_combinations3.mp ht, hpos, hf.symm⟩
      · rw [if_neg hpos] at hf
        exact absurd hf (by simp)
    · rintro ⟨i, j, k, hsub, hpos, rfl⟩
      exact ⟨(i, j, k), mem_combinations3.mpr hsub, by rw [if_pos hpos]⟩
  · exact List.length_take_le _ _
  · intro e he
    simpa using List.take_subset _ _ he
  · exact (List.sorted_insertionSort _ _).sublist (List.take_sublist _ _)
  · simp [find_top_triplets, triplet_score_list, candidate_positions,
      top_pair_list, firstKeys, combinations3]

/-- C3 (witness): the pipeline instantiated on the concrete three-column
alignment `exAln` — with `max_candidates = 0` the result is empty, and with
`max_candidates = 100` at most `top_n = 20` triplets come back. -/
theorem claim_C3_witness :
    find_top_triplets (fun x => x) exAln [0, 1, 2] (fun _ => "L") 20 0 =
        [] ∧
      (find_top_triplets (fun x => x) exAln [0, 1, 2] (fun _ => "L") 20
        100).length ≤ 20 :=
  ⟨(claim_C3 (fun x => x) exAln [0, 1, 2] (fun _ => "L") 20
      0).2.2.2.2.2.2.2.2.2.2.2.2,
   (claim_C3 (fun x => x) exAln [0, 1, 2] (fun _ => "L") 20
      100).2.2.2.2.2.2.2.2.2.1⟩
